import Mathlib

/-!
Verification of the `alexmatchen` schedule scraper (src/main.go).

The Go source is shallowly embedded: strings are modelled as `List Char`
(Go operates on bytes; for the string operations used here — substring
search, replacement, whitespace collapsing — the character-level model is
observationally equivalent on the inputs the program handles), the global
mutable cache is modelled by explicit state passing, and the fetch /
HTML-parse effects are modelled by an explicit outcome value handed to the
refresh function.  Machine integers do not overflow in any modelled
computation (timestamps and day counts stay far below 2^63), so `Nat` is
used directly.
-/

namespace Alexmatchen

/-! ## Constants (src/main.go lines 17-21) -/

/-- Constant `daysToShow = 10` (src/main.go line 18). -/
def daysToShow : Nat := 10

/-- One hour expressed in nanoseconds, the unit of Go `time.Duration`. -/
def hourNs : Nat := 3600000000000

/-- Constant `cacheDuration = 10 * time.Hour` (src/main.go line 19),
in nanoseconds as Go stores a `time.Duration`. -/
def cacheDuration : Nat := 10 * hourNs

/-- Configured interest substrings `leagues` (src/main.go line 25);
only "Premier League" is active, the rest are commented out. -/
def leagues : List (List Char) := ["Premier League".data]

/-! ## Text normalisation (src/main.go lines 24 and 111-113)

`league = strings.Replace(league, "\n", " ", -1)` replaces newlines by
spaces, `multipleSpaces.ReplaceAllString(league, " ")` collapses every run
of whitespace (`\s+`, i.e. tab, newline, form feed, carriage return,
space in RE2) to one space, and `strings.Trim(league, " ")` removes
leading and trailing space characters. -/

/-- Characters matched by the RE2 character class `\s` used in the
`multipleSpaces` regexp (src/main.go line 24). -/
def goWs (c : Char) : Bool :=
  c = '\t' || c = '\n' || c = '\x0c' || c = '\r' || c = ' '

/-- One step of `strings.Replace(league, "\n", " ", -1)`
(src/main.go line 111). -/
def replNewline (c : Char) : Char := if c = '\n' then ' ' else c

/-- Worker for the regexp replacement: the flag records whether the
previous character belonged to a whitespace run already replaced. -/
def collapseAux : Bool → List Char → List Char
  | _, [] => []
  | inWs, c :: rest =>
    if goWs c then
      if inWs then collapseAux true rest else ' ' :: collapseAux true rest
    else c :: collapseAux false rest

/-- `multipleSpaces.ReplaceAllString(league, " ")` (src/main.go line 112):
every maximal run of whitespace becomes a single space. -/
def collapseWs (s : List Char) : List Char := collapseAux false s

/-- The cutset of `strings.Trim(league, " ")` (src/main.go line 113). -/
def isSp (c : Char) : Bool := c = ' '

/-- `strings.Trim(league, " ")` (src/main.go line 113): drop leading and
trailing spaces. -/
def trimSpaces (s : List Char) : List Char :=
  ((s.dropWhile isSp).reverse.dropWhile isSp).reverse

/-- The full normalisation pipeline applied to the league text
(src/main.go lines 111-113). -/
def normalizeL (s : List Char) : List Char :=
  trimSpaces (collapseWs (s.map replNewline))

/-- String-level wrapper of the normalisation pipeline. -/
def normalize (s : String) : String := ⟨normalizeL s.data⟩

/-! ## Substring primitives (strings.Replace / strings.Contains) -/

/-- List-level prefix test (the scan step of Go `strings.Replace` and
`strings.Contains`). -/
def startsWithL : List Char → List Char → Bool
  | [], _ => true
  | _ :: _, [] => false
  | p :: ps, c :: cs => p == c && startsWithL ps cs

/-- Scan step of `strings.Replace(s, pat, "", -1)` with `pat`
non-empty.  Recursion is on a fuel argument so that the definition is
structural (hence kernel-computable); every recursive call strictly
shortens the scanned list, so fuel `s.length` never runs out. -/
def removeAllOccFuel (pat : List Char) : Nat → List Char → List Char
  | 0, s => s
  | _ + 1, [] => []
  | fuel + 1, c :: rest =>
    if startsWithL pat (c :: rest) then
      removeAllOccFuel pat fuel ((c :: rest).drop pat.length)
    else c :: removeAllOccFuel pat fuel rest

/-- `strings.Replace(s, pat, "", -1)` (src/main.go lines 95 and 108):
remove every (left-to-right, non-overlapping) occurrence of `pat`.
When `pat` is empty Go inserts the empty replacement and returns `s`
unchanged. -/
def removeAllOcc (pat : List Char) (s : List Char) : List Char :=
  if pat = [] then s else removeAllOccFuel pat s.length s

/-- `strings.Contains(s, pat)` (src/main.go line 119). -/
def hasSubstr (pat : List Char) : List Char → Bool
  | [] => startsWithL pat []
  | c :: rest => startsWithL pat (c :: rest) || hasSubstr pat rest

/-! ## Date arithmetic (Go `time.Parse` / `time.Time.Format`)

`time.Parse("2006-01-02", date)` (src/main.go line 97) accepts exactly a
ten-character `YYYY-MM-DD` string with in-range month and day and returns
the corresponding date; on any other input it returns an error together
with the zero time 0001-01-01 (a Monday).  `t.Format("2006-01-02 - ")`
prints the zero-padded date followed by " - ", and `t.Format("Monday")`
prints the English weekday name, which the code uses as lookup key into
the `dayNames` map (src/main.go line 98). -/

/-- Decimal digit test used by date parsing. -/
def isDigit (c : Char) : Bool := decide (48 ≤ c.toNat ∧ c.toNat ≤ 57)

/-- Numeric value of a decimal digit character. -/
def digitVal (c : Char) : Nat := c.toNat - 48

/-- Character for a decimal digit value. -/
def digitChar (n : Nat) : Char := Char.ofNat (48 + n)

/-- Gregorian leap-year rule, as in Go `time.isLeap`. -/
def isLeap (y : Nat) : Bool :=
  (y % 4 = 0 && y % 100 != 0) || y % 400 == 0

/-- Days in a month, as in Go `time.daysIn`. -/
def daysInMonth (y m : Nat) : Nat :=
  if m = 2 then (if isLeap y then 29 else 28)
  else if m = 4 ∨ m = 6 ∨ m = 9 ∨ m = 11 then 30
  else 31

/-- Days in year `y` strictly before month `m` (months are 1-based). -/
def daysBeforeMonth (y : Nat) : Nat → Nat
  | 0 => 0
  | 1 => 0
  | m + 1 => daysBeforeMonth y m + daysInMonth y m

/-- Leap years in `1 .. n` (used for days before year `n + 1`). -/
def leapsBefore (n : Nat) : Nat := n / 4 - n / 100 + n / 400

/-- Day index of `y-m-d` on the proleptic Gregorian calendar used by Go
`time`, normalised so that index `0` modulo 7 is a Monday
(0001-01-01, Go's zero time, is a Monday; year 0, the only representable
year before 1, starts on a Saturday, offset 5). -/
def dayNumber (y m d : Nat) : Nat :=
  if y = 0 then 5 + daysBeforeMonth 0 m + (d - 1)
  else 365 * (y - 1) + leapsBefore (y - 1) + daysBeforeMonth y m + (d - 1)

/-- The seven English weekday names produced by `t.Format("Monday")`,
indexed from Monday. -/
def weekdayNamesEn : List (List Char) :=
  ["Monday".data, "Tuesday".data, "Wednesday".data, "Thursday".data,
   "Friday".data, "Saturday".data, "Sunday".data]

/-- `t.Format("Monday")` for the date `y-m-d`. -/
def englishWeekday (y m d : Nat) : List Char :=
  weekdayNamesEn.getD (dayNumber y m d % 7) []

/-- The `dayNames` map (src/main.go lines 26-34).  A Go map lookup with a
missing key yields the zero value, here the empty string. -/
def dayNames (e : List Char) : List Char :=
  if e = "Monday".data then "Måndag".data
  else if e = "Tuesday".data then "Tisdag".data
  else if e = "Wednesday".data then "Onsdag".data
  else if e = "Thursday".data then "Torsdag".data
  else if e = "Friday".data then "Fredag".data
  else if e = "Saturday".data then "Lördag".data
  else if e = "Sunday".data then "Söndag".data
  else []

/-- `time.Parse("2006-01-02", s)` (src/main.go line 97): succeeds exactly
on a ten-character zero-padded `YYYY-MM-DD` with a valid month and day,
returning the three components. -/
def parseDateChars (s : List Char) : Option (Nat × Nat × Nat) :=
  match s with
  | [y1, y2, y3, y4, s1, m1, m2, s2, d1, d2] =>
    if s1 = '-' ∧ s2 = '-' ∧ isDigit y1 = true ∧ isDigit y2 = true ∧
       isDigit y3 = true ∧ isDigit y4 = true ∧ isDigit m1 = true ∧
       isDigit m2 = true ∧ isDigit d1 = true ∧ isDigit d2 = true then
      let y := digitVal y1 * 1000 + digitVal y2 * 100 + digitVal y3 * 10 + digitVal y4
      let m := digitVal m1 * 10 + digitVal m2
      let d := digitVal d1 * 10 + digitVal d2
      if 1 ≤ m ∧ m ≤ 12 ∧ 1 ≤ d ∧ d ≤ daysInMonth y m then some (y, m, d)
      else none
    else none
  | _ => none

/-- Zero-padded four-digit print (the `2006` verb for the years at hand). -/
def pad4 (n : Nat) : List Char :=
  [digitChar (n / 1000 % 10), digitChar (n / 100 % 10),
   digitChar (n / 10 % 10), digitChar (n % 10)]

/-- Zero-padded two-digit print (the `01` / `02` verbs). -/
def pad2 (n : Nat) : List Char :=
  [digitChar (n / 10 % 10), digitChar (n % 10)]

/-- `t.Format("2006-01-02")` for the date `y-m-d`. -/
def formatDate (y m d : Nat) : List Char :=
  pad4 y ++ ['-'] ++ pad2 m ++ ['-'] ++ pad2 d

/-! ## Day labels (src/main.go lines 93-98) -/

/-- The literal `"match-day-"` stripped from the day-header identifier
(src/main.go line 95). -/
def tagChars : List Char := "match-day-".data

/-- `strings.Replace(date, "match-day-", "", -1)` (src/main.go line 95). -/
def dateStrOf (idAttr : List Char) : List Char := removeAllOcc tagChars idAttr

/-- Lines 97-98 of src/main.go: parse the stripped identifier as an ISO
date (Go hands back the zero time 0001-01-01 when parsing fails, and the
error is discarded), then build
`t.Format("2006-01-02 - ") + dayNames[t.Format("Monday")]`. -/
def dayLabelOfId (idAttr : List Char) : List Char :=
  let ds := dateStrOf idAttr
  match parseDateChars ds with
  | some (y, m, d) =>
    formatDate y m d ++ " - ".data ++ dayNames (englishWeekday y m d)
  | none =>
    formatDate 1 1 1 ++ " - ".data ++ dayNames (englishWeekday 1 1 1)

/-! ## Data model (src/main.go lines 40-52) -/

/-- The `match` record (src/main.go lines 41-46). -/
structure Match where
  Name : List Char
  League : List Char
  Channel : List Char
  Time : List Char
deriving DecidableEq, Repr

/-- One `.sport-name-fotboll` row as seen by the extractor
(src/main.go lines 103-132): the text of `.match-name`, the text of
`.league`, the texts of the `a` elements inside `.league` in document
order, the `title` attribute of `.channel .channel-item` (absent
attribute modelled as `none`, Go receives `""`), and the text of
`.time .field-content`. -/
structure RowNode where
  matchName : List Char
  leagueText : List Char
  linkTexts : List (List Char)
  channelTitle : Option (List Char)
  timeText : List Char
deriving DecidableEq, Repr

/-- One `h2.day-name` header (src/main.go lines 87-103): the `id`
attribute of its `span.day-name-inner` (absent modelled as `none`, Go
receives `""`), and the `.sport-name-fotboll` rows of the immediately
following sibling table. -/
structure DayHeader where
  dayId : Option (List Char)
  rows : List RowNode
deriving DecidableEq, Repr

/-- The label computed for a day header (src/main.go lines 93-98). -/
def dayLabel (h : DayHeader) : List Char := dayLabelOfId (h.dayId.getD [])

/-- The global `schedule map[string][]*match` modelled as an association
list in key-insertion order (Go map semantics: assignment replaces the
value of an existing key). -/
abbrev Schedule := List (List Char × List Match)

/-- Go map assignment `schedule[k] = v`. -/
def setKey (k : List Char) (v : List Match) : Schedule → Schedule
  | [] => [(k, v)]
  | (k', v') :: rest =>
    if k' = k then (k, v) :: rest else (k', v') :: setKey k v rest

/-- Go map read `schedule[k]` (zero value `[]` for a missing key). -/
def getKey (k : List Char) : Schedule → List Match
  | [] => []
  | (k', v') :: rest => if k' = k then v' else getKey k rest

/-! ## Match extraction (src/main.go lines 103-140) -/

/-- The league text after stripping every embedded link text
(src/main.go lines 107-109) and normalising (lines 111-113). -/
def strippedLeague (r : RowNode) : List Char :=
  normalizeL (r.linkTexts.foldl (fun acc t => removeAllOcc t acc) r.leagueText)

/-- The body of the `.sport-name-fotboll` callback (src/main.go lines
103-139): build the normalised league, test it against the configured
interest substrings, and produce a `Match` only when interested. -/
def extractRow (r : RowNode) : Option Match :=
  let league := strippedLeague r
  if leagues.any (fun l => hasSubstr l league) then
    some { Name := r.matchName, League := league,
           Channel := r.channelTitle.getD [], Time := r.timeText }
  else none

/-- One row-iteration of the inner `Each` (src/main.go lines 103-140):
append the extracted match, if any, to the current day's entry. -/
def processRow (label : List Char) (sch : Schedule) (r : RowNode) : Schedule :=
  match extractRow r with
  | none => sch
  | some m => setKey label (getKey label sch ++ [m]) sch

/-- One day-iteration of the outer `Each` (src/main.go lines 88-141):
callbacks with index `i ≥ daysToShow` return immediately; otherwise the
day label is computed, its entry reset to the empty list (line 100), and
the adjacent table's rows are folded in. -/
def processDay (i : Nat) (h : DayHeader) (sch : Schedule) : Schedule :=
  if daysToShow ≤ i then sch
  else
    let label := dayLabel h
    h.rows.foldl (processRow label) (setKey label [] sch)

/-- The outer `Each` from index `i` onwards. -/
def parseFrom (i : Nat) : List DayHeader → Schedule → Schedule
  | [], sch => sch
  | h :: rest, sch => parseFrom (i + 1) rest (processDay i h sch)

/-- The whole parse of a document (src/main.go lines 84-141): the fresh
map of line 84 followed by the day loop. -/
def parseSchedule (doc : List DayHeader) : Schedule := parseFrom 0 doc []

/-! ## Cache state and refresh (src/main.go lines 35-37, 59-149)

Timestamps are nanoseconds on a monotone clock; `time.Since(lastRefresh)`
is `now - lastRefresh` (truncated `Nat` subtraction decides staleness
exactly as Go's signed comparison does, since a non-positive elapsed time
is never greater than the positive `cacheDuration`). -/

/-- The mutable globals `schedule` and `lastRefresh`
(src/main.go lines 35-36). -/
structure CacheState where
  schedule : Schedule
  lastRefresh : Nat
deriving DecidableEq, Repr

/-- Outcome of the fetch-and-parse step of a refresh: `client.Get` fails
(src/main.go line 72), `goquery.NewDocumentFromResponse` fails (line 79),
or a document is obtained whose day headers are listed in document
order. -/
inductive FetchOutcome where
  | fetchErr (msg : List Char)
  | parseErr (msg : List Char)
  | ok (doc : List DayHeader)
deriving DecidableEq, Repr

/-- Whether the outcome is one of the two failure kinds. -/
def FetchOutcome.failed : FetchOutcome → Bool
  | .fetchErr _ => true
  | .parseErr _ => true
  | .ok _ => false

/-- Observable result of one `refreshSchedule` call: the cache state on
exit, the error written with `http.Error` (if any), and whether the call
panicked (nil-document dereference). -/
structure RefreshResult where
  state : CacheState
  httpError : Option (List Char)
  panicked : Bool
deriving DecidableEq, Repr

/-- `refreshSchedule` (src/main.go lines 60-142).  The deferred function
(lines 63-67) sets `lastRefresh = time.Now()` and unlocks on EVERY exit
path, including the early `return` of the fetch-error branch and the
panic of the parse-error path.  On fetch error (lines 73-76) the handler
returns after `http.Error`, leaving `schedule` untouched.  On parse error
(lines 79-82) there is no `return`: execution continues, line 84 replaces
the global `schedule` with a fresh empty map, and line 87 then
dereferences the nil `doc`, panicking — the empty map and the updated
timestamp remain published.  On success the schedule is rebuilt from the
document and the timestamp updated. -/
def refreshSchedule (now : Nat) (out : FetchOutcome) (st : CacheState) :
    RefreshResult :=
  match out with
  | .fetchErr e => ⟨⟨st.schedule, now⟩, some e, false⟩
  | .parseErr e => ⟨⟨[], now⟩, some e, true⟩
  | .ok doc => ⟨⟨parseSchedule doc, now⟩, none, false⟩

/-- The staleness test of `refreshScheduleIfNeeded` (src/main.go line
146): `time.Since(lastRefresh) > cacheDuration`, a strict comparison. -/
def refreshNeeded (now : Nat) (st : CacheState) : Bool :=
  decide (cacheDuration < now - st.lastRefresh)

/-- `refreshScheduleIfNeeded` (src/main.go lines 145-149).  Returns the
resulting cache state and whether a refresh (hence a fetch) was
performed. -/
def refreshScheduleIfNeeded (now : Nat) (out : FetchOutcome)
    (st : CacheState) : CacheState × Bool :=
  if refreshNeeded now st then ((refreshSchedule now out st).state, true)
  else (st, false)

/-- Modelled from the spec: the spec's staleness predicate, `Stale`
meaning elapsed time since last refresh GREATER OR EQUAL to the TTL
(spec §4.4: "Stale (elapsed ≥ TTL)").  Stated separately from the
code's strict test so the two can be compared. -/
def specStale (now : Nat) (st : CacheState) : Bool :=
  decide (cacheDuration ≤ now - st.lastRefresh)

/-! ## Concurrent requests (src/main.go lines 60-67 and 144-149)

Each incoming request runs `refreshScheduleIfNeeded`: it reads
`lastRefresh` WITHOUT holding the mutex and decides staleness once
(line 146); if stale it calls `refreshSchedule`, which acquires `mu`
(line 62), performs the fetch-parse-publish critical section, and on
exit sets `lastRefresh` and unlocks (deferred, lines 63-67).  There is
no re-check of staleness after acquiring the lock.  Requests are
symmetric, so the interleaving semantics tracks how many requests sit at
each program point (counter abstraction); a trace is a list of
scheduler choices, each advancing one request at the named point.  All
requests are taken to arrive at the same instant `now`. -/

/-- Global state of `n` concurrent requests plus the shared globals:
how many requests are before the staleness check, waiting for `mu`,
inside the critical section, and finished, together with the lock bit,
`lastRefresh`, and the number of fetches performed so far. -/
structure SysState where
  nStart : Nat
  nWant : Nat
  nCrit : Nat
  nDone : Nat
  lockHeld : Bool
  lastRefresh : Nat
  fetchCount : Nat
deriving DecidableEq, Repr

/-- Scheduler choices: advance one request through its staleness check
(src/main.go line 146), let one waiting request acquire `mu` (line 62),
or let the request inside the critical section fetch, publish, set
`lastRefresh` and unlock (lines 69-141 and the deferred 63-67). -/
inductive SysAct where
  | checkStale
  | acquire
  | doRefresh
deriving DecidableEq, Repr

/-- One interleaving step.  A choice whose precondition does not hold
(no request at that point, or the lock is taken) is a stutter. -/
def sysStep (now : Nat) (st : SysState) (a : SysAct) : SysState :=
  match a with
  | .checkStale =>
    if 0 < st.nStart then
      if cacheDuration < now - st.lastRefresh then
        { st with nStart := st.nStart - 1, nWant := st.nWant + 1 }
      else
        { st with nStart := st.nStart - 1, nDone := st.nDone + 1 }
    else st
  | .acquire =>
    if 0 < st.nWant ∧ st.lockHeld = false then
      { st with nWant := st.nWant - 1, nCrit := st.nCrit + 1, lockHeld := true }
    else st
  | .doRefresh =>
    if 0 < st.nCrit then
      { st with nCrit := st.nCrit - 1, nDone := st.nDone + 1,
                lockHeld := false, lastRefresh := now,
                fetchCount := st.fetchCount + 1 }
    else st

/-- Run a trace of scheduler choices. -/
def sysRun (now : Nat) (st : SysState) (tr : List SysAct) : SysState :=
  tr.foldl (sysStep now) st

/-- `n` requests all about to run `refreshScheduleIfNeeded` against the
initial cache (zero-time `lastRefresh`, lock free, no fetch yet). -/
def sysInit (n : Nat) : SysState := ⟨n, 0, 0, 0, false, 0, 0⟩

/-- Invariant of the request system: requests are conserved, each request
fetches at most once, at most one request is in the critical section, and
none is there while the lock is free. -/
def sysInv (n : Nat) (st : SysState) : Prop :=
  st.nStart + st.nWant + st.nCrit + st.nDone = n ∧
  st.fetchCount + st.nStart + st.nWant + st.nCrit ≤ n ∧
  st.nCrit ≤ 1 ∧
  (st.lockHeld = false → st.nCrit = 0)

/-! ## Concrete inputs used by witnesses and counterexamples -/

/-- A row whose league is "Ligue 1", matching no configured interest
substring (spec Scenario C). -/
def rowC4 : RowNode :=
  ⟨"Arsenal - Chelsea".data, "Ligue 1".data, [], none, "20:00".data⟩

/-- A day header whose embedded date identifier is malformed. -/
def hdrBadC8 : DayHeader := ⟨some "match-day-20xx".data, []⟩

/-- A well-formed day header following the malformed one. -/
def hdrGoodC8 : DayHeader := ⟨some "match-day-2024-01-02".data, []⟩

/-- The day-header identifier of spec Scenario A. -/
def idC7 : List Char := "match-day-2024-01-01".data

/-- A non-empty cached snapshot present before a failing refresh. -/
def snapC2 : Schedule :=
  [("2024-01-01 - Måndag".data,
    [⟨"Arsenal - Chelsea".data, "Premier League".data, "TV4".data,
      "20:00".data⟩])]

/-- The keys of a schedule, in order. -/
def keysOf (sch : Schedule) : List (List Char) := sch.map Prod.fst

/-- The seven Swedish weekday names. -/
def swedishNames : List (List Char) :=
  ["Måndag".data, "Tisdag".data, "Onsdag".data, "Torsdag".data,
   "Fredag".data, "Lördag".data, "Söndag".data]

/-- Adjacent characters are not both whitespace. -/
def wsSep (a b : Char) : Prop := ¬ (goWs a = true ∧ goWs b = true)

/-! ## Lemmas about the schedule association list -/

theorem keysOf_nil : keysOf [] = [] := rfl

theorem keysOf_cons (p : List Char × List Match) (rest : Schedule) :
    keysOf (p :: rest) = p.1 :: keysOf rest := rfl

theorem setKey_length_le (k : List Char) (v : List Match) :
    ∀ sch : Schedule, (setKey k v sch).length ≤ sch.length + 1 := by
  intro sch
  induction sch with
  | nil => simp [setKey]
  | cons p rest ih =>
    obtain ⟨k', v'⟩ := p
    by_cases h : k' = k <;> simp only [setKey, h, if_true, if_false,
      reduceIte, List.length_cons] <;> omega

theorem mem_keysOf_setKey_self (k : List Char) (v : List Match) :
    ∀ sch : Schedule, k ∈ keysOf (setKey k v sch) := by
  intro sch
  induction sch with
  | nil => simp [setKey, keysOf_cons, keysOf_nil]
  | cons p rest ih =>
    obtain ⟨k', v'⟩ := p
    by_cases h : k' = k
    · subst h
      simp [setKey, keysOf_cons]
    · simp only [setKey, h, reduceIte, keysOf_cons, List.mem_cons]
      exact Or.inr ih

theorem mem_keysOf_setKey_of (k a : List Char) (v : List Match) :
    ∀ sch : Schedule, a ∈ keysOf sch → a ∈ keysOf (setKey k v sch) := by
  intro sch
  induction sch with
  | nil => simp [keysOf_nil]
  | cons p rest ih =>
    obtain ⟨k', v'⟩ := p
    intro ha
    rw [keysOf_cons, List.mem_cons] at ha
    by_cases h : k' = k
    · subst h
      simp only [setKey, reduceIte, eq_self_iff_true, if_true, keysOf_cons,
        List.mem_cons]
      rcases ha with ha | ha
      · exact Or.inl ha
      · exact Or.inr ha
    · simp only [setKey, h, reduceIte, keysOf_cons, List.mem_cons]
      rcases ha with ha | ha
      · exact Or.inl ha
      · exact Or.inr (ih ha)

theorem setKey_length_of_mem (k : List Char) (v : List Match) :
    ∀ sch : Schedule, k ∈ keysOf sch → (setKey k v sch).length = sch.length := by
  intro sch
  induction sch with
  | nil => simp [keysOf_nil]
  | cons p rest ih =>
    obtain ⟨k', v'⟩ := p
    intro hk
    rw [keysOf_cons, List.mem_cons] at hk
    by_cases h : k' = k
    · subst h
      simp [setKey]
    · simp only [setKey, h, reduceIte, List.length_cons]
      rcases hk with hk | hk
      · exact absurd hk.symm h
      · rw [ih hk]

theorem processRow_keysOf_mono (label a : List Char) (sch : Schedule)
    (r : RowNode) (ha : a ∈ keysOf sch) :
    a ∈ keysOf (processRow label sch r) := by
  unfold processRow
  cases extractRow r with
  | none => exact ha
  | some m => exact mem_keysOf_setKey_of _ _ _ _ ha

theorem processRow_stable (label : List Char) (sch : Schedule) (r : RowNode)
    (hl : label ∈ keysOf sch) :
    (processRow label sch r).length = sch.length ∧
      label ∈ keysOf (processRow label sch r) := by
  unfold processRow
  cases extractRow r with
  | none => exact ⟨rfl, hl⟩
  | some m =>
    exact ⟨setKey_length_of_mem _ _ _ hl, mem_keysOf_setKey_self _ _ _⟩

theorem foldl_processRow_stable (label : List Char) :
    ∀ (rows : List RowNode) (sch : Schedule), label ∈ keysOf sch →
      (rows.foldl (processRow label) sch).length = sch.length ∧
        label ∈ keysOf (rows.foldl (processRow label) sch) := by
  intro rows
  induction rows with
  | nil => exact fun sch h => ⟨rfl, h⟩
  | cons r rest ih =>
    intro sch hl
    have h1 := processRow_stable label sch r hl
    have h2 := ih (processRow label sch r) h1.2
    refine ⟨?_, by simpa only [List.foldl_cons] using h2.2⟩
    simp only [List.foldl_cons]
    rw [h2.1, h1.1]

theorem foldl_processRow_keysOf_mono (label a : List Char) :
    ∀ (rows : List RowNode) (sch : Schedule), a ∈ keysOf sch →
      a ∈ keysOf (rows.foldl (processRow label) sch) := by
  intro rows
  induction rows with
  | nil => exact fun sch h => h
  | cons r rest ih =>
    intro sch ha
    exact ih _ (processRow_keysOf_mono label a sch r ha)

theorem processDay_length_le (i : Nat) (h : DayHeader) (sch : Schedule) :
    (processDay i h sch).length ≤ sch.length + 1 := by
  unfold processDay
  by_cases hi : daysToShow ≤ i
  · simp [hi]
  · simp only [hi, reduceIte, if_false]
    have h1 := mem_keysOf_setKey_self (dayLabel h) [] sch
    have h2 := foldl_processRow_stable (dayLabel h) h.rows
      (setKey (dayLabel h) [] sch) h1
    have h3 := setKey_length_le (dayLabel h) [] sch
    omega

theorem processDay_keysOf_mono (i : Nat) (h : DayHeader) (sch : Schedule)
    (a : List Char) (ha : a ∈ keysOf sch) :
    a ∈ keysOf (processDay i h sch) := by
  unfold processDay
  by_cases hi : daysToShow ≤ i
  · simpa [hi] using ha
  · simp only [hi, reduceIte, if_false]
    exact foldl_processRow_keysOf_mono (dayLabel h) a h.rows _
      (mem_keysOf_setKey_of _ _ _ _ ha)

theorem processDay_label_mem (i : Nat) (h : DayHeader) (sch : Schedule)
    (hi : i < daysToShow) :
    dayLabel h ∈ keysOf (processDay i h sch) := by
  unfold processDay
  have hi' : ¬ daysToShow ≤ i := by omega
  simp only [hi', reduceIte, if_false]
  exact (foldl_processRow_stable (dayLabel h) h.rows _
    (mem_keysOf_setKey_self _ _ _)).2

theorem parseFrom_of_ge :
    ∀ (l : List DayHeader) (i : Nat) (sch : Schedule), daysToShow ≤ i →
      parseFrom i l sch = sch := by
  intro l
  induction l with
  | nil => intro i sch _; rfl
  | cons h rest ih =>
    intro i sch hi
    show parseFrom (i + 1) rest (processDay i h sch) = sch
    rw [show processDay i h sch = sch by unfold processDay; simp [hi]]
    exact ih (i + 1) sch (by omega)

theorem parseFrom_take :
    ∀ (l : List DayHeader) (i : Nat) (sch : Schedule), i ≤ daysToShow →
      parseFrom i l sch = parseFrom i (l.take (daysToShow - i)) sch := by
  intro l
  induction l with
  | nil => intro i sch _; simp [List.take_nil]
  | cons h rest ih =>
    intro i sch hi
    by_cases he : i = daysToShow
    · subst he
      rw [Nat.sub_self, List.take_zero]
      exact parseFrom_of_ge _ _ _ (le_refl _)
    · have hlt : i < daysToShow := lt_of_le_of_ne hi he
      have hs : daysToShow - i = (daysToShow - (i + 1)) + 1 := by omega
      rw [hs, List.take_succ_cons]
      show parseFrom (i + 1) rest (processDay i h sch) =
        parseFrom (i + 1) (rest.take (daysToShow - (i + 1))) (processDay i h sch)
      exact ih (i + 1) _ (by omega)

theorem parseFrom_length_le :
    ∀ (l : List DayHeader) (i : Nat) (sch : Schedule),
      (parseFrom i l sch).length ≤ sch.length + l.length := by
  intro l
  induction l with
  | nil => intro i sch; simp [parseFrom]
  | cons h rest ih =>
    intro i sch
    show (parseFrom (i + 1) rest (processDay i h sch)).length ≤ _
    have h1 := ih (i + 1) (processDay i h sch)
    have h2 := processDay_length_le i h sch
    simp only [List.length_cons]
    omega

theorem parseFrom_keysOf_mono :
    ∀ (l : List DayHeader) (i : Nat) (sch : Schedule) (a : List Char),
      a ∈ keysOf sch → a ∈ keysOf (parseFrom i l sch) := by
  intro l
  induction l with
  | nil => intro i sch a ha; exact ha
  | cons h rest ih =>
    intro i sch a ha
    exact ih (i + 1) _ a (processDay_keysOf_mono i h sch a ha)

theorem parseFrom_label_mem :
    ∀ (l : List DayHeader) (i : Nat) (sch : Schedule) (h : DayHeader),
      h ∈ l → i + l.length ≤ daysToShow →
      dayLabel h ∈ keysOf (parseFrom i l sch) := by
  intro l
  induction l with
  | nil => intro i sch h hm; exact absurd hm (List.not_mem_nil h)
  | cons h0 rest ih =>
    intro i sch h hm hlen
    rw [List.mem_cons] at hm
    simp only [List.length_cons] at hlen
    show dayLabel h ∈ keysOf (parseFrom (i + 1) rest (processDay i h0 sch))
    rcases hm with hm | hm
    · subst hm
      exact parseFrom_keysOf_mono rest (i + 1) _ _
        (processDay_label_mem i h sch (by omega))
    · exact ih (i + 1) _ h hm (by omega)

/-- Claim C5: for every input document, the resulting schedule has at
most `daysToShow` (10) entries, and it is exactly the schedule produced
from the first 10 day-headers in document order, even when the document
contains more day-headers. -/
theorem schedule_day_limit (doc : List DayHeader) :
    (parseSchedule doc).length ≤ daysToShow ∧
      parseSchedule doc = parseSchedule (doc.take daysToShow) := by
  have htake : parseSchedule doc = parseSchedule (doc.take daysToShow) := by
    unfold parseSchedule
    have := parseFrom_take doc 0 [] (by omega)
    rwa [Nat.sub_zero] at this
  refine ⟨?_, htake⟩
  rw [htake]
  unfold parseSchedule
  have h1 := parseFrom_length_le (doc.take daysToShow) 0 []
  have h2 : (doc.take daysToShow).length ≤ daysToShow := by
    rw [List.length_take]
    omega
  simpa using le_trans h1 (by simp)

/-- Claim C8: a day-header whose embedded date identifier is malformed
(not parseable as YYYY-MM-DD) gets the formatted zero time 0001-01-01 as
the date-derived portion of its label (with the zero time's weekday,
Monday/Måndag), and the parser does not abort: every later day-header is
still processed and contributes its own label to the schedule. -/
theorem malformed_day_header_nonfatal (pre post : List DayHeader)
    (h : DayHeader)
    (hbad : parseDateChars (dateStrOf (h.dayId.getD [])) = none)
    (hlen : pre.length + 1 + post.length ≤ daysToShow) :
    dayLabel h = "0001-01-01 - Måndag".data ∧
      ∀ h2 ∈ post, dayLabel h2 ∈ keysOf (parseSchedule (pre ++ h :: post)) := by
  constructor
  · show dayLabelOfId (h.dayId.getD []) = _
    simp only [dayLabelOfId, hbad]
    decide
  · intro h2 hm
    apply parseFrom_label_mem (pre ++ h :: post) 0 [] h2
    · exact List.mem_append.mpr (Or.inr (List.mem_cons.mpr (Or.inr hm)))
    · simp only [List.length_append, List.length_cons]
      omega

/-- Witness for C8 at a concrete two-header document: the malformed
header gets the zero-time label, and the following good header is still
processed. -/
theorem malformed_day_header_nonfatal_witness :
    dayLabel hdrBadC8 = "0001-01-01 - Måndag".data ∧
      dayLabel hdrGoodC8 ∈ keysOf (parseSchedule [hdrBadC8, hdrGoodC8]) := by
  have h := malformed_day_header_nonfatal [] [hdrGoodC8] hdrBadC8
    (by decide) (by decide)
  exact ⟨h.1, h.2 hdrGoodC8 (by simp)⟩

/-! ## Cache refresh failure semantics (claims C1, C2, C3) -/

/-- Claim C1 (counterexample): the claim that a failed refresh leaves the
last-refresh timestamp unchanged, so that the next staleness-gated
request retries, is false.  Concretely: starting from the initial cache
(timestamp 0), a fetch-error refresh at time 5 changes the timestamp to
5; a staleness-gated request at time `5 + cacheDuration` would have
triggered a refresh against the old state but does not retry after the
failed refresh. -/
theorem failed_refresh_updates_timestamp_cex :
    ¬ ((refreshSchedule 5 (.fetchErr "boom".data)
        ⟨[], 0⟩).state.lastRefresh = 0) ∧
      refreshNeeded (5 + cacheDuration) ⟨[], 0⟩ = true ∧
      (refreshScheduleIfNeeded (5 + cacheDuration) (.ok [])
        (refreshSchedule 5 (.fetchErr "boom".data) ⟨[], 0⟩).state).2 = false := by
  decide

/-- Claim C1 (amended): for every refresh that fails (fetch error or
document-parse error) the deferred function still sets the last-refresh
timestamp to the attempt time, so a staleness-gated request arriving
within the TTL of the failed attempt does NOT retry the refresh. -/
theorem failed_refresh_timestamp_updated (now now2 : Nat)
    (out out2 : FetchOutcome) (st : CacheState)
    (hfail : out.failed = true) (hsoon : now2 - now ≤ cacheDuration) :
    (refreshSchedule now out st).state.lastRefresh = now ∧
      (refreshScheduleIfNeeded now2 out2
        (refreshSchedule now out st).state).2 = false := by
  have hlr : (refreshSchedule now out st).state.lastRefresh = now := by
    cases out with
    | fetchErr e => rfl
    | parseErr e => rfl
    | ok doc => simp [FetchOutcome.failed] at hfail
  refine ⟨hlr, ?_⟩
  simp only [refreshScheduleIfNeeded, refreshNeeded, hlr]
  have : ¬ (cacheDuration < now2 - now) := by omega
  simp [this]

/-- Witness for the amended C1 at a concrete failed refresh. -/
theorem failed_refresh_timestamp_updated_witness :
    (refreshSchedule 5 (.parseErr "bad".data) ⟨[], 0⟩).state.lastRefresh = 5 ∧
      (refreshScheduleIfNeeded 6 (.ok [])
        (refreshSchedule 5 (.parseErr "bad".data) ⟨[], 0⟩).state).2 = false :=
  failed_refresh_timestamp_updated 5 6 (.parseErr "bad".data) (.ok [])
    ⟨[], 0⟩ (by decide) (by decide)

/-- Claim C2 (code bug): the claim says a document-parse failure leaves
the cached snapshot exactly as it was, identically to a fetch failure.
The code's parse-error branch (src/main.go lines 79-82) is missing the
`return` that the fetch-error branch has: execution continues, line 84
replaces the global `schedule` with a fresh empty map, and the nil `doc`
is then dereferenced.  Evaluating the model at a parse-error refresh
over a non-empty snapshot: the snapshot is wiped (and the call panics),
whereas the same refresh with a fetch error leaves it untouched. -/
theorem parse_error_wipes_snapshot :
    (refreshSchedule 5 (.parseErr "bad html".data)
      ⟨snapC2, 0⟩).state.schedule = [] ∧
    snapC2 ≠ [] ∧
    (refreshSchedule 5 (.parseErr "bad html".data) ⟨snapC2, 0⟩).panicked = true ∧
    (refreshSchedule 5 (.fetchErr "conn refused".data)
      ⟨snapC2, 0⟩).state.schedule = snapC2 := by
  decide

/-- Claim C3 (counterexample): the claim defines Stale as elapsed ≥ TTL,
but the gate (src/main.go line 146) uses a strict comparison: with the
elapsed time exactly equal to the TTL the spec's predicate says Stale
while the code performs no refresh and returns the snapshot unchanged. -/
theorem ttl_boundary_cex :
    specStale cacheDuration ⟨[], 0⟩ = true ∧
      (refreshScheduleIfNeeded cacheDuration (.ok []) ⟨[], 0⟩).2 = false ∧
      refreshScheduleIfNeeded cacheDuration (.ok []) ⟨[], 0⟩ = (⟨[], 0⟩, false) := by
  decide

/-- Claim C3 (amended): the staleness-gated get performs a refresh if
and only if the elapsed time since the last refresh is STRICTLY greater
than the TTL (10 hours); otherwise (elapsed ≤ TTL, including exact
equality) it returns the current snapshot unchanged without fetching. -/
theorem gate_refreshes_iff_strictly_stale (now : Nat) (out : FetchOutcome)
    (st : CacheState) :
    ((refreshScheduleIfNeeded now out st).2 = true ↔
      cacheDuration < now - st.lastRefresh) ∧
    (now - st.lastRefresh ≤ cacheDuration →
      refreshScheduleIfNeeded now out st = (st, false)) := by
  constructor
  · unfold refreshScheduleIfNeeded refreshNeeded
    by_cases h : cacheDuration < now - st.lastRefresh <;> simp [h]
  · intro h
    unfold refreshScheduleIfNeeded refreshNeeded
    have : ¬ (cacheDuration < now - st.lastRefresh) := by omega
    simp [this]

/-- Witness for the amended C3: 9 hours elapsed (spec Scenario D, fresh
side) returns the snapshot without fetching. -/
theorem gate_refreshes_iff_strictly_stale_witness :
    refreshScheduleIfNeeded (9 * hourNs) (.ok []) ⟨[], 0⟩ = (⟨[], 0⟩, false) :=
  (gate_refreshes_iff_strictly_stale (9 * hourNs) (.ok []) ⟨[], 0⟩).2
    (by decide)

/-! ## League filtering (claim C4) -/

/-- Claim C4: a Match record is produced from a row only if its
normalised league contains at least one configured interest substring
(case-sensitive substring match), and every row whose normalised league
contains none of them produces no Match record. -/
theorem extract_filtering (r : RowNode) :
    (∀ m : Match, extractRow r = some m →
      ∃ l ∈ leagues, hasSubstr l m.League = true) ∧
    ((∀ l ∈ leagues, hasSubstr l (strippedLeague r) = false) →
      extractRow r = none) := by
  unfold extractRow
  by_cases hc : leagues.any (fun l => hasSubstr l (strippedLeague r)) = true
  · simp only [hc, if_true, reduceIte]
    constructor
    · intro m hm
      obtain ⟨l, hl, hsub⟩ := List.any_eq_true.mp hc
      refine ⟨l, hl, ?_⟩
      have : m.League = strippedLeague r := by
        cases hm
        rfl
      rw [this]
      exact hsub
    · intro hall
      obtain ⟨l, hl, hsub⟩ := List.any_eq_true.mp hc
      rw [hall l hl] at hsub
      cases hsub
  · simp only [hc, if_false, reduceIte]
    exact ⟨fun m hm => absurd hm (by simp), fun _ => rfl⟩

/-- Witness for C4 at spec Scenario C: a "Ligue 1" row with interest set
containing only "Premier League" yields no Match record. -/
theorem extract_filtering_witness : extractRow rowC4 = none :=
  (extract_filtering rowC4).2 (by decide)

/-! ## Concurrency (claim C9) -/

theorem sysInv_init (n : Nat) : sysInv n (sysInit n) := by
  refine ⟨?_, ?_, ?_, fun _ => rfl⟩
  · show n + 0 + 0 + 0 = n
    omega
  · show 0 + n + 0 + 0 ≤ n
    omega
  · show 0 ≤ 1
    omega

theorem sysInv_step (now n : Nat) (st : SysState) (a : SysAct)
    (h : sysInv n st) : sysInv n (sysStep now st a) := by
  obtain ⟨h1, h2, h3, h4⟩ := h
  cases a with
  | checkStale =>
    unfold sysStep
    by_cases hs : 0 < st.nStart
    · by_cases hst : cacheDuration < now - st.lastRefresh
      · simp only [hs, hst, reduceIte, if_true]
        refine ⟨?_, ?_, h3, h4⟩
        · show st.nStart - 1 + (st.nWant + 1) + st.nCrit + st.nDone = n
          omega
        · show st.fetchCount + (st.nStart - 1) + (st.nWant + 1) + st.nCrit ≤ n
          omega
      · simp only [hs, hst, reduceIte, if_true, if_false]
        refine ⟨?_, ?_, h3, h4⟩
        · show st.nStart - 1 + st.nWant + st.nCrit + (st.nDone + 1) = n
          omega
        · show st.fetchCount + (st.nStart - 1) + st.nWant + st.nCrit ≤ n
          omega
    · simp only [hs, reduceIte, if_false]
      exact ⟨h1, h2, h3, h4⟩
  | acquire =>
    unfold sysStep
    by_cases hs : 0 < st.nWant ∧ st.lockHeld = false
    · have hc0 : st.nCrit = 0 := h4 hs.2
      simp only [hs, reduceIte, if_true]
      refine ⟨?_, ?_, ?_, fun hf => by cases hf⟩
      · show st.nStart + (st.nWant - 1) + (st.nCrit + 1) + st.nDone = n
        omega
      · show st.fetchCount + st.nStart + (st.nWant - 1) + (st.nCrit + 1) ≤ n
        omega
      · show st.nCrit + 1 ≤ 1
        omega
    · simp only [hs, reduceIte, if_false]
      exact ⟨h1, h2, h3, h4⟩
  | doRefresh =>
    unfold sysStep
    by_cases hs : 0 < st.nCrit
    · simp only [hs, reduceIte, if_true]
      refine ⟨?_, ?_, ?_, fun _ => ?_⟩
      · show st.nStart + st.nWant + (st.nCrit - 1) + (st.nDone + 1) = n
        omega
      · show st.fetchCount + 1 + st.nStart + st.nWant + (st.nCrit - 1) ≤ n
        omega
      · show st.nCrit - 1 ≤ 1
        omega
      · show st.nCrit - 1 = 0
        omega
    · simp only [hs, reduceIte, if_false]
      exact ⟨h1, h2, h3, h4⟩

theorem sysInv_run (now n : Nat) :
    ∀ (tr : List SysAct) (st : SysState), sysInv n st →
      sysInv n (sysRun now st tr) := by
  intro tr
  induction tr with
  | nil => exact fun st h => h
  | cons a rest ih =>
    intro st h
    exact ih (sysStep now st a) (sysInv_step now n st a h)

/-- Claim C9 (counterexample): with two concurrent requests both
observing the stale initial cache before either acquires the mutex
(the code checks staleness only before locking and never re-checks
after acquiring it), the trace check-check-acquire-refresh-acquire-
refresh performs two underlying fetches, refuting "at most one fetch". -/
theorem stampede_two_fetches_cex :
    (sysRun (cacheDuration + 1) (sysInit 2)
      [.checkStale, .checkStale, .acquire, .doRefresh,
       .acquire, .doRefresh]).fetchCount = 2 ∧
    ¬ ((sysRun (cacheDuration + 1) (sysInit 2)
      [.checkStale, .checkStale, .acquire, .doRefresh,
       .acquire, .doRefresh]).fetchCount ≤ 1) := by
  decide

/-- Claim C9 (amended): the mutex serialises refreshes — along every
interleaving at most one request is ever inside the critical section —
but staleness is not re-checked after acquiring the lock, so each of the
N requests that observed the cache as stale performs its own fetch: the
number of fetches is bounded by N (and, per the counterexample, can
reach N), not by 1. -/
theorem refresh_serialized_fetch_bound (now n : Nat) (tr : List SysAct) :
    (sysRun now (sysInit n) tr).fetchCount ≤ n ∧
      (sysRun now (sysInit n) tr).nCrit ≤ 1 := by
  have h := sysInv_run now n tr (sysInit n) (sysInv_init n)
  obtain ⟨h1, h2, h3, h4⟩ := h
  exact ⟨by omega, h3⟩

/-! ## Day labels (claims C7 and C10) -/

theorem digitVal_lt (c : Char) (h : isDigit c = true) : digitVal c < 10 := by
  have h' := of_decide_eq_true h
  unfold digitVal
  omega

theorem digitChar_digitVal (c : Char) (h : isDigit c = true) :
    digitChar (digitVal c) = c := by
  have h' := of_decide_eq_true h
  unfold digitChar digitVal
  rw [show 48 + (c.toNat - 48) = c.toNat by omega, Char.ofNat_toNat]

theorem formatDate_of_parse (s : List Char) (y m d : Nat)
    (h : parseDateChars s = some (y, m, d)) : formatDate y m d = s := by
  rcases s with _ | ⟨c1, _ | ⟨c2, _ | ⟨c3, _ | ⟨c4, _ | ⟨c5, _ | ⟨c6, _ |
    ⟨c7, _ | ⟨c8, _ | ⟨c9, _ | ⟨c10, _ | ⟨c11, rest⟩⟩⟩⟩⟩⟩⟩⟩⟩⟩⟩ <;>
    try (simp [parseDateChars] at h)
  obtain ⟨⟨hs1, hs2, h1, h2, h3, h4, h5, h6, h7, h8⟩, hrange, hy, hm, hd⟩ := h
  have b1 := digitVal_lt c1 h1
  have b2 := digitVal_lt c2 h2
  have b3 := digitVal_lt c3 h3
  have b4 := digitVal_lt c4 h4
  have b5 := digitVal_lt c6 h5
  have b6 := digitVal_lt c7 h6
  have b7 := digitVal_lt c9 h7
  have b8 := digitVal_lt c10 h8
  subst hy hm hd hs1 hs2
  unfold formatDate pad4 pad2
  have e1 : (digitVal c1 * 1000 + digitVal c2 * 100 + digitVal c3 * 10 +
      digitVal c4) / 1000 % 10 = digitVal c1 := by omega
  have e2 : (digitVal c1 * 1000 + digitVal c2 * 100 + digitVal c3 * 10 +
      digitVal c4) / 100 % 10 = digitVal c2 := by omega
  have e3 : (digitVal c1 * 1000 + digitVal c2 * 100 + digitVal c3 * 10 +
      digitVal c4) / 10 % 10 = digitVal c3 := by omega
  have e4 : (digitVal c1 * 1000 + digitVal c2 * 100 + digitVal c3 * 10 +
      digitVal c4) % 10 = digitVal c4 := by omega
  have e5 : (digitVal c6 * 10 + digitVal c7) / 10 % 10 = digitVal c6 := by
    omega
  have e6 : (digitVal c6 * 10 + digitVal c7) % 10 = digitVal c7 := by omega
  have e7 : (digitVal c9 * 10 + digitVal c10) / 10 % 10 = digitVal c9 := by
    omega
  have e8 : (digitVal c9 * 10 + digitVal c10) % 10 = digitVal c10 := by omega
  rw [e1, e2, e3, e4, e5, e6, e7, e8,
    digitChar_digitVal c1 h1, digitChar_digitVal c2 h2,
    digitChar_digitVal c3 h3, digitChar_digitVal c4 h4,
    digitChar_digitVal c6 h5, digitChar_digitVal c7 h6,
    digitChar_digitVal c9 h7, digitChar_digitVal c10 h8]
  rfl

/-- Claim C7: for a day-header whose embedded identifier parses as an
ISO date, the computed day-label is that ISO date followed by " - " and
the localized weekday name looked up in the fixed seven-entry
English-to-Swedish `dayNames` mapping. -/
theorem day_label_parsed (idAttr : List Char) (y m d : Nat)
    (h : parseDateChars (dateStrOf idAttr) = some (y, m, d)) :
    dayLabelOfId idAttr =
      dateStrOf idAttr ++ " - ".data ++ dayNames (englishWeekday y m d) := by
  simp only [dayLabelOfId, h]
  rw [formatDate_of_parse (dateStrOf idAttr) y m d h]

/-- Witness for C7 at spec Scenario A: the identifier embedding
2024-01-01 (a Monday) yields the label "2024-01-01 - Måndag". -/
theorem day_label_parsed_witness :
    parseDateChars (dateStrOf idC7) = some (2024, 1, 1) ∧
      dayLabelOfId idC7 = "2024-01-01 - Måndag".data := by
  refine ⟨by decide, ?_⟩
  rw [day_label_parsed idC7 2024 1 1 (by decide)]
  decide

theorem swedish_weekday_total (y m d : Nat) :
    dayNames (englishWeekday y m d) ∈ swedishNames ∧
      dayNames (englishWeekday y m d) ≠ [] := by
  unfold englishWeekday
  have h7 : dayNumber y m d % 7 < 7 := Nat.mod_lt _ (by omega)
  revert h7
  generalize dayNumber y m d % 7 = k
  intro h7
  interval_cases k <;> exact ⟨by decide, by decide⟩

/-- Claim C10: for every processed day-header — whether its date
identifier parses or is malformed (yielding the zero time) — the
weekday suffix of the computed day-label is one of the seven Swedish
weekday names and never empty: the English name fed into the lookup is
always one of the seven names present in the mapping, so the spec's
empty-suffix fallback branch is unreachable. -/
theorem day_label_suffix_swedish (idAttr : List Char) :
    ∃ pre w, dayLabelOfId idAttr = pre ++ " - ".data ++ w ∧
      w ∈ swedishNames ∧ w ≠ [] := by
  unfold dayLabelOfId
  cases hp : parseDateChars (dateStrOf idAttr) with
  | none =>
    refine ⟨formatDate 1 1 1, dayNames (englishWeekday 1 1 1), by simp only [hp], ?_, ?_⟩
    · exact (swedish_weekday_total 1 1 1).1
    · exact (swedish_weekday_total 1 1 1).2
  | some t =>
    obtain ⟨y, m, d⟩ := t
    refine ⟨formatDate y m d, dayNames (englishWeekday y m d), by simp only [hp], ?_, ?_⟩
    · exact (swedish_weekday_total y m d).1
    · exact (swedish_weekday_total y m d).2

/-! ## Idempotence of the normaliser (claim C6)

After one pass of the pipeline every remaining whitespace character is a
single space, no two whitespace characters are adjacent, and the result
neither starts nor ends with a space; each of the three stages fixes any
string with those properties. -/

theorem collapseAux_false_cons (c : Char) (l : List Char) :
    collapseAux false (c :: l) =
      if goWs c then ' ' :: collapseAux true l else c :: collapseAux false l :=
  rfl

theorem collapseAux_true_cons (c : Char) (l : List Char) :
    collapseAux true (c :: l) =
      if goWs c then collapseAux true l else c :: collapseAux false l :=
  rfl

theorem mem_collapseAux_sp :
    ∀ (l : List Char) (b : Bool) (c : Char), c ∈ collapseAux b l →
      goWs c = true → c = ' ' := by
  intro l
  induction l with
  | nil => intro b c hc; simp [collapseAux] at hc
  | cons a rest ih =>
    intro b c hc hw
    unfold collapseAux at hc
    by_cases ha : goWs a
    · simp only [ha, if_true, reduceIte] at hc
      cases b with
      | true => exact ih true c hc hw
      | false =>
        rcases List.mem_cons.mp hc with hc | hc
        · exact hc
        · exact ih true c hc hw
    · simp only [ha, if_false, reduceIte, Bool.false_eq_true] at hc
      rcases List.mem_cons.mp hc with hc | hc
      · subst hc
        exact absurd hw (by simp [ha])
      · exact ih false c hc hw

theorem head_collapseAux_true :
    ∀ (l : List Char) (c : Char), (collapseAux true l).head? = some c →
      goWs c = false := by
  intro l
  induction l with
  | nil => intro c hc; simp [collapseAux] at hc
  | cons a rest ih =>
    intro c hc
    unfold collapseAux at hc
    by_cases ha : goWs a
    · simp only [ha, if_true, reduceIte] at hc
      exact ih c hc
    · simp only [ha, if_false, reduceIte, Bool.false_eq_true,
        List.head?_cons, Option.some.injEq] at hc
      subst hc
      simpa using ha

theorem chain_collapseAux :
    ∀ (l : List Char) (b : Bool), List.Chain' wsSep (collapseAux b l) := by
  intro l
  induction l with
  | nil => intro b; simp [collapseAux]
  | cons a rest ih =>
    intro b
    cases b with
    | true =>
      rw [collapseAux_true_cons]
      by_cases ha : goWs a = true
      · rw [if_pos ha]
        exact ih true
      · rw [if_neg ha, List.chain'_cons']
        refine ⟨?_, ih false⟩
        intro c _ hcon
        exact ha hcon.1
    | false =>
      rw [collapseAux_false_cons]
      by_cases ha : goWs a = true
      · rw [if_pos ha, List.chain'_cons']
        refine ⟨?_, ih true⟩
        intro c hc
        have hg := head_collapseAux_true rest c (by simpa using hc)
        intro hcon
        rw [hg] at hcon
        exact absurd hcon.2 (by simp)
      · rw [if_neg ha, List.chain'_cons']
        refine ⟨?_, ih false⟩
        intro c _ hcon
        exact ha hcon.1

theorem collapseAux_fix :
    ∀ l : List Char, (∀ c ∈ l, goWs c = true → c = ' ') →
      List.Chain' wsSep l →
      collapseAux false l = l ∧
        ((∀ c, l.head? = some c → goWs c = false) → collapseAux true l = l) := by
  intro l
  induction l with
  | nil => exact fun _ _ => ⟨rfl, fun _ => rfl⟩
  | cons a rest ih =>
    intro hall hch
    have hch' : List.Chain' wsSep rest := hch.tail
    have hrec := ih (fun c hc hw => hall c (List.mem_cons.mpr (Or.inr hc)) hw) hch'
    have hhd : ∀ c, rest.head? = some c → wsSep a c := by
      intro c hc
      exact (List.chain'_cons'.mp hch).1 c (by simp [hc])
    constructor
    · by_cases ha : goWs a = true
      · have ha' : a = ' ' := hall a (List.mem_cons.mpr (Or.inl rfl)) ha
        rw [collapseAux_false_cons, if_pos ha]
        have htr : collapseAux true rest = rest := by
          apply hrec.2
          intro c hc
          have hsep := hhd c hc
          unfold wsSep at hsep
          by_cases hgc : goWs c = true
          · exact absurd ⟨ha, hgc⟩ hsep
          · simpa using hgc
        rw [htr, ha']
      · rw [collapseAux_false_cons, if_neg ha, hrec.1]
    · intro hhead
      have ha : goWs a = false := hhead a rfl
      rw [collapseAux_true_cons, if_neg (by simp [ha]), hrec.1]

theorem mem_trimSpaces (l : List Char) (c : Char) (hc : c ∈ trimSpaces l) :
    c ∈ l := by
  unfold trimSpaces at hc
  rw [List.mem_reverse] at hc
  have h1 := (List.dropWhile_sublist isSp).subset hc
  rw [List.mem_reverse] at h1
  exact (List.dropWhile_sublist isSp).subset h1

theorem wsSep_flip (a b : Char) (h : wsSep a b) : wsSep b a := by
  unfold wsSep at h ⊢
  intro hcon
  exact h ⟨hcon.2, hcon.1⟩

theorem chain_reverse_of (l : List Char) (h : List.Chain' wsSep l) :
    List.Chain' wsSep l.reverse := by
  rw [List.chain'_reverse]
  refine h.imp ?_
  intro a b hab
  exact wsSep_flip a b hab

theorem chain_trimSpaces (l : List Char) (h : List.Chain' wsSep l) :
    List.Chain' wsSep (trimSpaces l) := by
  unfold trimSpaces
  apply chain_reverse_of
  exact (chain_reverse_of _ (h.suffix (List.dropWhile_suffix isSp))).suffix
    (List.dropWhile_suffix isSp)

theorem head_dropWhile_not (p : Char → Bool) :
    ∀ (l : List Char) (c : Char), (l.dropWhile p).head? = some c →
      p c = false := by
  intro l
  induction l with
  | nil => intro c hc; simp at hc
  | cons a rest ih =>
    intro c hc
    rw [List.dropWhile_cons] at hc
    by_cases ha : p a
    · simp only [ha, if_true, reduceIte] at hc
      exact ih c hc
    · simp only [ha, if_false, reduceIte, Bool.false_eq_true,
        List.head?_cons, Option.some.injEq] at hc
      subst hc
      simpa using ha

theorem dropWhile_eq_self_of (p : Char → Bool) (l : List Char)
    (h : ∀ c, l.head? = some c → p c = false) : l.dropWhile p = l := by
  cases l with
  | nil => rfl
  | cons a rest =>
    have := h a rfl
    rw [List.dropWhile_cons]
    simp [this]

theorem getLast_dropWhile_ne (p : Char → Bool) :
    ∀ l : List Char, l.dropWhile p ≠ [] →
      (l.dropWhile p).getLast? = l.getLast? := by
  intro l
  induction l with
  | nil => intro h; exact absurd rfl h
  | cons a rest ih =>
    intro hne
    rw [List.dropWhile_cons] at hne ⊢
    by_cases ha : p a
    · simp only [ha, if_true, reduceIte] at hne ⊢
      have hrest : rest ≠ [] := by
        intro hnil
        subst hnil
        exact hne (by simp)
      rw [ih hne]
      cases rest with
      | nil => exact absurd rfl hrest
      | cons b r2 => rw [List.getLast?_cons_cons]
    · simp [ha]

theorem trimSpaces_ends (l : List Char) :
    (∀ c, (trimSpaces l).head? = some c → isSp c = false) ∧
      (∀ c, (trimSpaces l).getLast? = some c → isSp c = false) := by
  constructor
  · intro c hc
    unfold trimSpaces at hc
    rw [List.head?_reverse] at hc
    by_cases h2 : (l.dropWhile isSp).reverse.dropWhile isSp = []
    · rw [h2] at hc
      simp at hc
    · rw [getLast_dropWhile_ne isSp _ h2, List.getLast?_reverse] at hc
      exact head_dropWhile_not isSp _ c hc
  · intro c hc
    unfold trimSpaces at hc
    rw [List.getLast?_reverse] at hc
    exact head_dropWhile_not isSp _ c hc

theorem trimSpaces_fix (l : List Char)
    (h1 : ∀ c, l.head? = some c → isSp c = false)
    (h2 : ∀ c, l.getLast? = some c → isSp c = false) : trimSpaces l = l := by
  unfold trimSpaces
  rw [dropWhile_eq_self_of isSp l h1]
  rw [dropWhile_eq_self_of isSp l.reverse
    (by intro c hc; rw [List.head?_reverse] at hc; exact h2 c hc)]
  exact List.reverse_reverse l

theorem map_self_of (f : Char → Char) :
    ∀ l : List Char, (∀ c ∈ l, f c = c) → l.map f = l := by
  intro l
  induction l with
  | nil => intro _; rfl
  | cons a rest ih =>
    intro h
    rw [List.map_cons, h a (List.mem_cons.mpr (Or.inl rfl)),
      ih (fun c hc => h c (List.mem_cons.mpr (Or.inr hc)))]

theorem normalizeL_idem (l : List Char) :
    normalizeL (normalizeL l) = normalizeL l := by
  have key : ∀ u : List Char, (∀ c ∈ u, goWs c = true → c = ' ') →
      List.Chain' wsSep u → normalizeL (trimSpaces u) = trimSpaces u := by
    intro u hall hch
    have hallv : ∀ c ∈ trimSpaces u, goWs c = true → c = ' ' :=
      fun c hc hw => hall c (mem_trimSpaces u c hc) hw
    have hchv : List.Chain' wsSep (trimSpaces u) := chain_trimSpaces u hch
    have hends := trimSpaces_ends u
    have hmap : (trimSpaces u).map replNewline = trimSpaces u := by
      apply map_self_of
      intro c hc
      unfold replNewline
      by_cases hcn : c = '\n'
      · subst hcn
        have : ('\n' : Char) = ' ' := hallv '\n' hc (by decide)
        exact absurd this (by decide)
      · simp [hcn]
    have hcoll : collapseWs (trimSpaces u) = trimSpaces u :=
      (collapseAux_fix (trimSpaces u) hallv hchv).1
    have htrim : trimSpaces (trimSpaces u) = trimSpaces u := by
      apply trimSpaces_fix
      · exact hends.1
      · exact hends.2
    unfold normalizeL collapseWs at hcoll ⊢
    rw [hmap, hcoll, htrim]
  exact key (collapseWs (l.map replNewline))
    (fun c hc hw => mem_collapseAux_sp (l.map replNewline) false c hc hw)
    (chain_collapseAux (l.map replNewline) false)

/-- Claim C6: the text normalisation applied to the league string
(replace newlines with spaces, collapse each whitespace run to a single
space, trim leading and trailing spaces) is idempotent: applying it
twice to any string equals applying it once. -/
theorem normalize_idempotent (s : String) :
    normalize (normalize s) = normalize s :=
  congrArg String.mk (normalizeL_idem s.data)

end Alexmatchen
